import Mathlib

/-!
Verification of the query-construction runtime (`base_operation.py`) and the
configuration layer (`config.py`) of the GraphQL SDK generator.

The first part develops facts about `Nat.repr` (decimal rendering of naturals),
which the variable-naming algorithm of `GraphQLField` relies on: candidate
variable names `"{base}_{counter}"` for distinct counters are distinct strings,
which is what makes the collision-avoidance loop terminate with a fresh name.
-/

set_option maxHeartbeats 1000000

namespace DecimalFacts

/-- Numeric value of a decimal digit character (`'0'` has code point 48). -/
def decDigit (c : Char) : Nat := c.toNat - 48

/-- Decode a list of decimal digit characters, most significant first. -/
def decodeChars (l : List Char) : Nat := l.foldl (fun a c => a * 10 + decDigit c) 0

/-- Recursive specification of the decimal digit list of a natural number,
mirroring what `Nat.toDigitsCore` computes with sufficient fuel. -/
def toDigitsSpec (n : Nat) : List Char :=
  if n < 10 then [Nat.digitChar n]
  else toDigitsSpec (n / 10) ++ [Nat.digitChar (n % 10)]
termination_by n
decreasing_by
  exact Nat.div_lt_self (by omega) (by omega)

end DecimalFacts

namespace QueryBuilder

/-!
Shallow embedding of `base_operation.py`.

Python `Set[str]` is modelled as a `List String` used only through membership
and insert-if-absent; `Dict` (insertion-ordered in Python) is modelled as an
association list, with `dictInsert` mirroring `d[k] = v` (an existing key keeps
its position and gets its value replaced, a new key is appended) and
`dictUpdate` mirroring `d.update(other)`.

Rendering in Python mutates each node's `_formatted_variables` cache in place;
here `to_ast` additionally returns a `Rendered` tree holding exactly those
per-node caches, so that `get_formatted_variables` can be expressed on it.
The argument values (`Any` in Python) are an opaque type parameter `V`.
-/

/-! ### Freshness of the names chosen by `_format_variable_name` -/

variable {V : Type}

/-- Python `d[k] = v` on an insertion-ordered dict. -/
def dictInsert {α : Type} (d : List (String × α)) (k : String) (v : α) :
    List (String × α) :=
  if d.any (fun p => p.1 == k) then
    d.map (fun p => if p.1 == k then (k, v) else p)
  else d ++ [(k, v)]

/-- Python `d.update(other)` on insertion-ordered dicts. -/
def dictUpdate {α : Type} (d other : List (String × α)) : List (String × α) :=
  other.foldl (fun acc p => dictInsert acc p.1 p.2) d

/-- `ArgumentNode(name=NameNode(name), value=VariableNode(name=NameNode(variable_name)))`:
the argument AST node, carrying the declared argument name and the variable it
references (always a variable reference, never an inline literal). -/
structure ArgumentNode where
  name : String
  variable_name : String
deriving DecidableEq

mutual
/-- `FieldNode(name=..., arguments=..., selection_set=...)`; a `SelectionSetNode`
is represented by its list of selections, absent (`none`) when the Python code
passes `selection_set=None`. -/
inductive FieldNode : Type where
  | mk (name : String) (arguments : List ArgumentNode)
       (selection_set : Option (List SelectionNode))

/-- A member of a selection set: either a rendered subfield or an
`InlineFragmentNode(type_condition=NamedTypeNode(...), selection_set=...)`. -/
inductive SelectionNode : Type where
  | ofField (node : FieldNode)
  | inlineFragment (type_condition : String) (selections : List FieldNode)
end

def FieldNode.name : FieldNode → String
  | .mk n _ _ => n

def FieldNode.arguments : FieldNode → List ArgumentNode
  | .mk _ args _ => args

def FieldNode.selection_set : FieldNode → Option (List SelectionNode)
  | .mk _ _ sel => sel

/-- `GraphQLArgument.__init__`: stores the argument name and the variable name
it will reference. -/
structure GraphQLArgument where
  _name : String
  _value : String

/-- `GraphQLArgument.to_ast`. -/
def GraphQLArgument.to_ast (a : GraphQLArgument) : ArgumentNode :=
  ArgumentNode.mk a._name a._value

/-- The `{"type": ..., "value": ...}` payload of one entry of the `arguments`
dict passed to `GraphQLField.__init__`. -/
structure VarValue (V : Type) where
  type : String
  value : V
deriving DecidableEq

/-- One entry of `_formatted_variables`:
`{"name": k, "type": v["type"], "value": v["value"]}`. -/
structure FormattedVar (V : Type) where
  name : String
  type : String
  value : V
deriving DecidableEq

/-- The builder state of a `GraphQLField`: `_field_name`, `_alias`,
`_variables` (argument name → type/value), `_subfields`, `_inline_fragments`
(type name → branch fields). -/
inductive GraphQLField (V : Type) : Type where
  | mk (field_name : String) (alias? : Option String)
       (variables' : List (String × VarValue V))
       (subfields : List (GraphQLField V))
       (inline_fragments : List (String × List (GraphQLField V)))

def GraphQLField.field_name : GraphQLField V → String
  | .mk fn _ _ _ _ => fn

def GraphQLField.alias? : GraphQLField V → Option String
  | .mk _ al _ _ _ => al

def GraphQLField.variables' : GraphQLField V → List (String × VarValue V)
  | .mk _ _ vs _ _ => vs

def GraphQLField.subfields : GraphQLField V → List (GraphQLField V)
  | .mk _ _ _ sf _ => sf

def GraphQLField.inline_fragments : GraphQLField V → List (String × List (GraphQLField V))
  | .mk _ _ _ _ fr => fr

/-- `GraphQLField.alias`: records the alias (last call wins). The Python method
also returns `self` for chaining. -/
def GraphQLField.alias' : GraphQLField V → String → GraphQLField V
  | .mk fn _ vs sf fr, a => .mk fn (some a) vs sf fr

/-- `GraphQLField.add_subfield`: appends one child. -/
def GraphQLField.add_subfield : GraphQLField V → GraphQLField V → GraphQLField V
  | .mk fn al vs sf fr, s => .mk fn al vs (sf ++ [s]) fr

/-- `GraphQLField.add_inline_fragment`: `self._inline_fragments[type_name] = subfields`. -/
def GraphQLField.add_inline_fragment :
    GraphQLField V → String → List (GraphQLField V) → GraphQLField V
  | .mk fn al vs sf fr, type_name, subs => .mk fn al vs sf (dictInsert fr type_name subs)

/-- `GraphQLField._build_field_name`:
`f"{self._alias}: {self._field_name}" if self._alias else self._field_name`.
Note the Python truthiness test: an alias that is `None` *or the empty string*
falls through to the bare field name. -/
def _build_field_name (alias? : Option String) (field_name : String) : String :=
  match alias? with
  | some a => if a.isEmpty then field_name else a ++ ": " ++ field_name
  | none => field_name

/-- The `while unique_name in used_names` loop of `_format_variable_name`,
with the candidate `f"{base_name}_{counter}"` and an explicit iteration bound;
`used_names.length + 1` iterations always suffice (`formatLoop_spec`). -/
def formatLoop (base_name : String) (used_names : List String) :
    Nat → Nat → String
  | 0, counter => base_name ++ "_" ++ Nat.repr counter
  | fuel + 1, counter =>
    let unique_name := base_name ++ "_" ++ Nat.repr counter
    if unique_name ∈ used_names then formatLoop base_name used_names fuel (counter + 1)
    else unique_name

/-- `GraphQLField._format_variable_name`: starting from
`base_name = f"{idx}_{var_name}"`, append `_1`, `_2`, … until the name is not
in `used_names`, then add it to `used_names` (returned as second component). -/
def _format_variable_name (idx : Nat) (var_name : String) (used_names : List String) :
    String × List String :=
  let base_name := Nat.repr idx ++ "_" ++ var_name
  let unique_name :=
    if base_name ∈ used_names then formatLoop base_name used_names (used_names.length + 1) 1
    else base_name
  (unique_name, if unique_name ∈ used_names then used_names else used_names ++ [unique_name])

/-- The `for k, v in self._variables.items()` loop of `_collect_all_variables`,
threading `used_names` and building `_formatted_variables` by dict assignment. -/
def collectLoop (idx : Nat) :
    List (String × VarValue V) → List (String × FormattedVar V) → List String →
      List (String × FormattedVar V) × List String
  | [], acc, used_names => (acc, used_names)
  | (k, v) :: rest, acc, used_names =>
    let r := _format_variable_name idx k used_names
    collectLoop idx rest (dictInsert acc r.1 (FormattedVar.mk k v.type v.value)) r.2

/-- `GraphQLField._collect_all_variables`: resets `_formatted_variables` to `{}`
and fills it from `_variables`. -/
def _collect_all_variables (idx : Nat) (vars : List (String × VarValue V))
    (used_names : List String) : List (String × FormattedVar V) × List String :=
  collectLoop idx vars [] used_names

/-- The post-render state of one `GraphQLField` subtree: each node's
`_formatted_variables` cache, in the same tree shape. -/
inductive Rendered (V : Type) : Type where
  | mk (formatted_variables : List (String × FormattedVar V))
       (subfields : List (Rendered V))
       (inline_fragments : List (String × List (Rendered V)))

def Rendered.formatted_variables : Rendered V → List (String × FormattedVar V)
  | .mk fv _ _ => fv

def Rendered.subfields : Rendered V → List (Rendered V)
  | .mk _ subs _ => subs

mutual
/-- `GraphQLField.to_ast(idx, used_names)`: collects this node's variables
(mutating `used_names`), renders the arguments through `GraphQLArgument`, and
attaches a selection set (subfield renders first, then one inline-fragment node
per registered type name) unless the field is a leaf.  Returns the AST node,
the final `used_names`, and the per-node `_formatted_variables` caches. -/
def GraphQLField.to_ast :
    GraphQLField V → Nat → List String → FieldNode × List String × Rendered V
  | .mk field_name alias? variables' subfields inline_fragments, idx, used_names =>
    let cv := _collect_all_variables idx variables' used_names
    let formatted_args :=
      cv.1.map (fun kv => (GraphQLArgument.mk kv.2.name kv.1).to_ast)
    let rl := renderList subfields idx cv.2
    let rf := renderFrags inline_fragments idx rl.2.1
    (FieldNode.mk (_build_field_name alias? field_name) formatted_args
       (if subfields.isEmpty && inline_fragments.isEmpty then none
        else some (rl.1.map SelectionNode.ofField ++ rf.1)),
     rf.2.1,
     Rendered.mk cv.1 rl.2.2 rf.2.2)

/-- The subfield part of `_build_selections`:
`[subfield.to_ast(idx, used_names) for subfield in self._subfields]`. -/
def renderList :
    List (GraphQLField V) → Nat → List String →
      List FieldNode × List String × List (Rendered V)
  | [], _, used_names => ([], used_names, [])
  | f :: rest, idx, used_names =>
    let r := f.to_ast idx used_names
    let rs := renderList rest idx r.2.1
    (r.1 :: rs.1, rs.2.1, r.2.2 :: rs.2.2)

/-- The inline-fragment part of `_build_selections`: one
`InlineFragmentNode(type_condition=..., selection_set=...)` per entry of
`self._inline_fragments`, in dict (insertion) order. -/
def renderFrags :
    List (String × List (GraphQLField V)) → Nat → List String →
      List SelectionNode × List String × List (String × List (Rendered V))
  | [], _, used_names => ([], used_names, [])
  | (type_name, branch) :: rest, idx, used_names =>
    let rb := renderList branch idx used_names
    let rs := renderFrags rest idx rb.2.1
    (SelectionNode.inlineFragment type_name rb.1 :: rs.1, rs.2.1,
     (type_name, rb.2.2) :: rs.2.2)
end

mutual
/-- All variable names chosen in a rendered subtree, in traversal order:
this node's variables, then subfields depth-first, then inline fragments. -/
def collectKeys : Rendered V → List String
  | .mk fv subs frags => fv.map Prod.fst ++ (collectKeysList subs ++ collectKeysFrags frags)

def collectKeysList : List (Rendered V) → List String
  | [] => []
  | r :: rest => collectKeys r ++ collectKeysList rest

def collectKeysFrags : List (String × List (Rendered V)) → List String
  | [] => []
  | (_, branch) :: rest => collectKeysList branch ++ collectKeysFrags rest
end

mutual
/-- `GraphQLField.get_formatted_variables`: merges, depth-first, the aggregated
variables of every subfield and of every inline-fragment branch into this
node's own `_formatted_variables` (the Python method mutates the node's dict
via `update` and returns it). -/
def get_formatted_variables : Rendered V → List (String × FormattedVar V)
  | .mk fv subs frags => aggFrags (aggList fv subs) frags

/-- The `for subfield in self._subfields` loop of `get_formatted_variables`. -/
def aggList :
    List (String × FormattedVar V) → List (Rendered V) → List (String × FormattedVar V)
  | acc, [] => acc
  | acc, r :: rest => aggList (dictUpdate acc (get_formatted_variables r)) rest

/-- The `for subfields in self._inline_fragments.values()` loop of
`get_formatted_variables`. -/
def aggFrags :
    List (String × FormattedVar V) → List (String × List (Rendered V)) →
      List (String × FormattedVar V)
  | acc, [] => acc
  | acc, (_, branch) :: rest => aggFrags (aggList acc branch) rest
end

mutual
/-- The variables of a rendered subtree as one concatenated association list,
in traversal order. -/
def flattenVars : Rendered V → List (String × FormattedVar V)
  | .mk fv subs frags => fv ++ (flattenList subs ++ flattenFrags frags)

def flattenList : List (Rendered V) → List (String × FormattedVar V)
  | [] => []
  | r :: rest => flattenVars r ++ flattenList rest

def flattenFrags : List (String × List (Rendered V)) → List (String × FormattedVar V)
  | [] => []
  | (_, branch) :: rest => flattenList branch ++ flattenFrags rest
end

mutual
/-- Erase the argument lists everywhere in a rendered AST, keeping the
structure: names, nesting, selection order and fragment type conditions. -/
def eraseArgsF : FieldNode → FieldNode
  | .mk n _ none => .mk n [] none
  | .mk n _ (some sels) => .mk n [] (some (eraseArgsSels sels))

def eraseArgsSels : List SelectionNode → List SelectionNode
  | [] => []
  | .ofField fn :: rest => .ofField (eraseArgsF fn) :: eraseArgsSels rest
  | .inlineFragment tc fs :: rest => .inlineFragment tc (eraseArgsFs fs) :: eraseArgsSels rest

def eraseArgsFs : List FieldNode → List FieldNode
  | [] => []
  | f :: rest => eraseArgsF f :: eraseArgsFs rest
end

mutual
/-- Specification shape, following the spec's description of `render`: the
node is named by the alias rule and its selection set — absent exactly on
leaves — lists the subfields in insertion order followed by one inline
fragment per registered type name in registration order, each containing
exactly its own branch's fields. -/
def astShape : GraphQLField V → FieldNode
  | .mk fn al _ subs frags =>
    .mk (_build_field_name al fn) []
      (if subs.isEmpty && frags.isEmpty then none
       else some (astShapeList subs ++ astShapeFrags frags))

def astShapeList : List (GraphQLField V) → List SelectionNode
  | [] => []
  | f :: rest => .ofField (astShape f) :: astShapeList rest

def astShapeFrags : List (String × List (GraphQLField V)) → List SelectionNode
  | [] => []
  | (tn, branch) :: rest => .inlineFragment tn (astShapeBranch branch) :: astShapeFrags rest

def astShapeBranch : List (GraphQLField V) → List FieldNode
  | [] => []
  | f :: rest => astShape f :: astShapeBranch rest
end

/-- Projection of a selection to its inline-fragment type condition. -/
def selFragCond : SelectionNode → Option String
  | .inlineFragment tc _ => some tc
  | .ofField _ => none

/-- Projection of a selection to its inline-fragment content. -/
def selFragPair : SelectionNode → Option (String × List FieldNode)
  | .inlineFragment tc fs => some (tc, fs)
  | .ofField _ => none

/-- The type conditions of the inline fragments in a field node's selection
set, in order. -/
def fragmentTypeConditions (n : FieldNode) : List String :=
  match n.selection_set with
  | none => []
  | some sels => sels.filterMap selFragCond

/-- The inline fragments of a field node's selection set, in order, as
(type condition, contained fields) pairs. -/
def fragmentsOf (n : FieldNode) : List (String × List FieldNode) :=
  match n.selection_set with
  | none => []
  | some sels => sels.filterMap selFragPair

/-- A Field with two inline-fragment branches, used as the C10 witness. -/
def petField : GraphQLField Unit :=
  GraphQLField.mk "pet" none []
    []
    [("Cat", [GraphQLField.mk "name" none [] [] []]),
     ("Dog", [GraphQLField.mk "barks" none [] [] []])]

/-- A replacement branch for the "Cat" fragment of `petField`. -/
def catBranch2 : List (GraphQLField Unit) := [GraphQLField.mk "age" none [] [] []]

end QueryBuilder

namespace SdkConfig

/-!
Shallow embedding of `config.py`.

The filesystem is a parameter (`FileSystem`): `config.py` only queries path
existence and directory-ness.  The exception classes live in the repository's
`exceptions` module; they are modelled as one error type, with the
`MissingConfiguration` message for missing fields represented structurally:
Python joins a *set* of field names into the message, with unspecified
enumeration order, so the model records which names the message contains
(in declared field order).  `str.isidentifier` and `keyword.iskeyword` are
Python standard-library functions, modelled here on their documented
behaviour (identifier syntax restricted to ASCII).
-/

structure FileSystem where
  pathExists : String → Bool
  isDir : String → Bool

inductive ConfigError : Type where
  | configFileNotFound (msg : String)
  | invalidConfiguration (msg : String)
  | missingConfigurationSection (section_key : String)
  | missingConfigurationFields (missing : List String)
deriving DecidableEq

/-- The `Settings` frozen dataclass: its four fields. -/
structure Settings where
  schema_path : String
  queries_path : String
  target_package_name : String
  target_package_path : String
deriving DecidableEq

/-- `Settings._assert_path_exists`. -/
def _assert_path_exists (fs : FileSystem) (path : String) : Except ConfigError Unit :=
  if fs.pathExists path then Except.ok ()
  else Except.error (ConfigError.invalidConfiguration
    ("Provided path " ++ path ++ " doesn't exist."))

/-- `Settings._assert_path_is_valid_directory`. -/
def _assert_path_is_valid_directory (fs : FileSystem) (path : String) :
    Except ConfigError Unit :=
  if fs.isDir path then Except.ok ()
  else Except.error (ConfigError.invalidConfiguration
    ("Provided path " ++ path ++ " isn't a directory."))

/-- The Python 3 keyword list (`keyword.kwlist`). -/
def pythonKeywords : List String :=
  ["False", "None", "True", "and", "as", "assert", "async", "await", "break",
   "class", "continue", "def", "del", "elif", "else", "except", "finally",
   "for", "from", "global", "if", "import", "in", "is", "lambda", "nonlocal",
   "not", "or", "pass", "raise", "return", "try", "while", "with", "yield"]

/-- `keyword.iskeyword` from the Python standard library. -/
def iskeyword (s : String) : Bool := pythonKeywords.contains s

/-- `str.isidentifier` from the Python standard library (ASCII fragment):
nonempty, first character a letter or underscore, the rest letters, digits or
underscores. -/
def isidentifier (s : String) : Bool :=
  match s.data with
  | [] => false
  | c :: rest => (c.isAlpha || c == '_') && rest.all (fun d => d.isAlphanum || d == '_')

/-- `Settings._assert_string_is_valid_package_name`: note that, unlike its two
sibling `_assert_*` methods, this method *returns* its boolean instead of
raising `InvalidConfiguration`. -/
def _assert_string_is_valid_package_name (name : String) : Bool :=
  isidentifier name && !iskeyword name

/-- `Settings.__post_init__`: validates the two input paths and the target
directory.  The package-name check's boolean result is discarded, mirroring
the statement `self._assert_string_is_valid_package_name(self.target_package_name)`
whose return value is unused — so no error is ever raised for an invalid name. -/
def post_init (fs : FileSystem) (s : Settings) : Except ConfigError Unit := do
  _assert_path_exists fs s.schema_path
  _assert_path_exists fs s.queries_path
  let _ := _assert_string_is_valid_package_name s.target_package_name
  _assert_path_is_valid_directory fs s.target_package_path

/-- Constructing a `Settings` (the frozen dataclass assigns the fields, then
runs `__post_init__`). -/
def mkSettings (fs : FileSystem) (schema_path queries_path target_package_name
    target_package_path : String) : Except ConfigError Settings :=
  let s : Settings :=
    Settings.mk schema_path queries_path target_package_name target_package_path
  (post_init fs s).map (fun _ => s)

/-- The names of the `Settings` dataclass fields (`dataclasses.fields`),
in declaration order. -/
def settings_field_names : List String :=
  ["schema_path", "queries_path", "target_package_name", "target_package_path"]

/-- The fields without defaults: `Settings(**section)` raises `TypeError`
exactly when one of these is absent from the section, or when the section
holds a key that is not a `Settings` field. -/
def required_field_names : List String := ["schema_path", "queries_path"]

/-- Whether the call `Settings(**config[section_key])` raises `TypeError`
(Python keyword-argument semantics for the dataclass constructor). -/
def settingsCallRaisesTypeError (keys : List String) : Bool :=
  required_field_names.any (fun f => !keys.contains f) ||
    keys.any (fun k => !settings_field_names.contains k)

/-- `expected_fields.difference(config[section_key])`: the `Settings` fields
absent from the section. -/
def missing_fields (keys : List String) : List String :=
  settings_field_names.filter (fun f => !keys.contains f)

/-- Keyword-argument lookup with a dataclass default. -/
def lookupD (sec : List (String × String)) (k d : String) : String :=
  match sec.lookup k with
  | some v => v
  | none => d

/-- The body of `parse_config_file` once the section is found: construct
`Settings(**config[section_key])`; on `TypeError` raise `MissingConfiguration`
naming `expected_fields.difference(config[section_key])`. -/
def parse_config_section (fs : FileSystem) (cwd : String)
    (sec : List (String × String)) : Except ConfigError Settings :=
  if settingsCallRaisesTypeError (sec.map Prod.fst) then
    Except.error (ConfigError.missingConfigurationFields (missing_fields (sec.map Prod.fst)))
  else
    mkSettings fs (lookupD sec "schema_path" "") (lookupD sec "queries_path" "")
      (lookupD sec "target_package_name" "graphql_client")
      (lookupD sec "target_package_path" cwd)

/-- `parse_config_file`: raise `MissingConfiguration` when the section key is
absent from the parsed TOML, otherwise construct the settings from the
section. -/
def parse_config_file (fs : FileSystem) (cwd : String)
    (config : List (String × List (String × String))) (section_key : String) :
    Except ConfigError Settings :=
  match config.lookup section_key with
  | none => Except.error (ConfigError.missingConfigurationSection section_key)
  | some sec => parse_config_section fs cwd sec

end SdkConfig

namespace DecimalFacts

theorem decDigit_digitChar (d : Nat) (hd : d < 10) : decDigit (Nat.digitChar d) = d := by
  interval_cases d <;> rfl

theorem toDigitsCore_eq_spec (f n : Nat) (ds : List Char) (h : n < f) :
    Nat.toDigitsCore 10 f n ds = toDigitsSpec n ++ ds := by
  induction f generalizing n ds with
  | zero => omega
  | succ f ih =>
    show (if n / 10 = 0 then Nat.digitChar (n % 10) :: ds
          else Nat.toDigitsCore 10 f (n / 10) (Nat.digitChar (n % 10) :: ds)) =
        toDigitsSpec n ++ ds
    by_cases h10 : n / 10 = 0
    · have hn : n < 10 := by omega
      rw [if_pos h10, toDigitsSpec, if_pos hn, Nat.mod_eq_of_lt hn]
      simp
    · have hn : ¬ n < 10 := by
        intro hlt
        exact h10 (Nat.div_eq_of_lt hlt)
      have hdiv : n / 10 < n := Nat.div_lt_self (by omega) (by omega)
      rw [if_neg h10, ih (n / 10) (Nat.digitChar (n % 10) :: ds) (by omega)]
      conv_rhs => rw [toDigitsSpec, if_neg hn]
      simp

theorem toDigits_eq_spec (n : Nat) : Nat.toDigits 10 n = toDigitsSpec n := by
  have := toDigitsCore_eq_spec (n + 1) n [] (by omega)
  simpa [Nat.toDigits] using this

theorem decodeChars_append_singleton (l : List Char) (c : Char) :
    decodeChars (l ++ [c]) = decodeChars l * 10 + decDigit c := by
  simp [decodeChars, List.foldl_append]

theorem decodeChars_toDigitsSpec (n : Nat) : decodeChars (toDigitsSpec n) = n := by
  induction n using Nat.strong_induction_on with
  | _ n ih =>
    by_cases hn : n < 10
    · rw [toDigitsSpec, if_pos hn]
      simp [decodeChars, decDigit_digitChar n hn]
    · rw [toDigitsSpec, if_neg hn]
      have hdiv : n / 10 < n := Nat.div_lt_self (by omega) (by omega)
      rw [decodeChars_append_singleton, ih (n / 10) hdiv,
        decDigit_digitChar (n % 10) (Nat.mod_lt n (by omega))]
      omega

theorem natRepr_injective : Function.Injective Nat.repr := by
  intro m n h
  have hdata : (Nat.toDigits 10 m) = (Nat.toDigits 10 n) := by
    have := congrArg String.data h
    simpa [Nat.repr, List.asString] using this
  have : decodeChars (toDigitsSpec m) = decodeChars (toDigitsSpec n) := by
    rw [← toDigits_eq_spec, ← toDigits_eq_spec, hdata]
  rwa [decodeChars_toDigitsSpec, decodeChars_toDigitsSpec] at this

theorem string_append_left_cancel {a b c : String} (h : a ++ b = a ++ c) : b = c := by
  have hd : a.data ++ b.data = a.data ++ c.data := by
    have := congrArg String.data h
    simpa [String.data_append] using this
  have hbc : b.data = c.data := List.append_cancel_left hd
  cases b
  cases c
  exact congrArg String.mk (by simpa using hbc)

/-- Distinct counters yield distinct candidate names `base ++ "_" ++ Nat.repr i`. -/
theorem candidate_injective (base : String) :
    Function.Injective (fun i => base ++ "_" ++ Nat.repr i) := by
  intro i j h
  exact natRepr_injective (string_append_left_cancel h)

end DecimalFacts

namespace QueryBuilder

open DecimalFacts

variable {V : Type}

theorem formatLoop_not_mem (base_name : String) (used_names : List String)
    (fuel counter : Nat)
    (h : ∃ j, j < fuel ∧ base_name ++ "_" ++ Nat.repr (counter + j) ∉ used_names) :
    formatLoop base_name used_names fuel counter ∉ used_names := by
  induction fuel generalizing counter with
  | zero => obtain ⟨j, hj, _⟩ := h; omega
  | succ fuel ih =>
    show (if base_name ++ "_" ++ Nat.repr counter ∈ used_names then
            formatLoop base_name used_names fuel (counter + 1)
          else base_name ++ "_" ++ Nat.repr counter) ∉ used_names
    by_cases hc : base_name ++ "_" ++ Nat.repr counter ∈ used_names
    · rw [if_pos hc]
      apply ih
      obtain ⟨j, hj, hfree⟩ := h
      cases j with
      | zero =>
        rw [Nat.add_zero] at hfree
        exact absurd hc hfree
      | succ j' =>
        refine ⟨j', by omega, ?_⟩
        have harith : counter + (j' + 1) = counter + 1 + j' := by omega
        rwa [harith] at hfree
    · rw [if_neg hc]
      exact hc

theorem exists_free_candidate (base_name : String) (used_names : List String)
    (counter fuel : Nat) (hf : used_names.length < fuel) :
    ∃ j, j < fuel ∧ base_name ++ "_" ++ Nat.repr (counter + j) ∉ used_names := by
  by_contra hall
  push_neg at hall
  have hsub : ((List.range fuel).map
      (fun j => base_name ++ "_" ++ Nat.repr (counter + j))) ⊆ used_names := by
    intro x hx
    simp only [List.mem_map, List.mem_range] at hx
    obtain ⟨j, hj, rfl⟩ := hx
    exact hall j hj
  have hinj : Function.Injective (fun j => base_name ++ "_" ++ Nat.repr (counter + j)) := by
    intro i j hij
    have := candidate_injective base_name hij
    omega
  have hnd := List.Nodup.map hinj (List.nodup_range fuel)
  have hle := (List.subperm_of_subset hnd hsub).length_le
  simp only [List.length_map, List.length_range] at hle
  omega

/-- The name chosen by `_format_variable_name` is not in `used_names` before
the call, and the returned `used_names` is the old set with exactly that name
added. -/
theorem format_variable_name_spec (idx : Nat) (var_name : String)
    (used_names : List String) :
    (_format_variable_name idx var_name used_names).1 ∉ used_names ∧
      (_format_variable_name idx var_name used_names).2 =
        used_names ++ [(_format_variable_name idx var_name used_names).1] := by
  have h1 : (_format_variable_name idx var_name used_names).1 =
      (if (Nat.repr idx ++ "_" ++ var_name) ∈ used_names then
        formatLoop (Nat.repr idx ++ "_" ++ var_name) used_names (used_names.length + 1) 1
       else (Nat.repr idx ++ "_" ++ var_name)) := rfl
  have hfresh : (_format_variable_name idx var_name used_names).1 ∉ used_names := by
    rw [h1]
    by_cases hb : (Nat.repr idx ++ "_" ++ var_name) ∈ used_names
    · rw [if_pos hb]
      exact formatLoop_not_mem _ _ _ _
        (exists_free_candidate _ _ 1 (used_names.length + 1) (by omega))
    · rw [if_neg hb]
      exact hb
  have h2 : (_format_variable_name idx var_name used_names).2 =
      (if (_format_variable_name idx var_name used_names).1 ∈ used_names then used_names
       else used_names ++ [(_format_variable_name idx var_name used_names).1]) := rfl
  refine ⟨hfresh, ?_⟩
  rw [h2, if_neg hfresh]

theorem dictInsert_of_fresh {α : Type} (d : List (String × α)) (k : String) (v : α)
    (h : k ∉ d.map Prod.fst) : dictInsert d k v = d ++ [(k, v)] := by
  unfold dictInsert
  rw [if_neg]
  simp only [List.any_eq_true, beq_iff_eq, not_exists, not_and]
  intro p hp hpk
  exact h (List.mem_map.2 ⟨p, hp, hpk⟩)

/-- Running the collection loop from any `acc` whose keys are already reserved
in `used_names` appends a block of freshly chosen, pairwise distinct names. -/
theorem collectLoop_spec (idx : Nat) (vars : List (String × VarValue V))
    (acc : List (String × FormattedVar V)) (used_names : List String)
    (hacc : ∀ k ∈ acc.map Prod.fst, k ∈ used_names) :
    ∃ delta : List (String × FormattedVar V),
      collectLoop idx vars acc used_names =
          (acc ++ delta, used_names ++ delta.map Prod.fst) ∧
        (delta.map Prod.fst).Nodup ∧
        ∀ x ∈ delta.map Prod.fst, x ∉ used_names := by
  induction vars generalizing acc used_names with
  | nil => exact ⟨[], by simp [collectLoop], by simp, by simp⟩
  | cons kv rest ih =>
    obtain ⟨k, v⟩ := kv
    obtain ⟨hfresh, hused⟩ := format_variable_name_spec idx k used_names
    have hstep : collectLoop idx ((k, v) :: rest) acc used_names =
        collectLoop idx rest
          (dictInsert acc (_format_variable_name idx k used_names).1
            (FormattedVar.mk k v.type v.value))
          (_format_variable_name idx k used_names).2 := rfl
    have hnotacc : (_format_variable_name idx k used_names).1 ∉ acc.map Prod.fst :=
      fun hmem => hfresh (hacc _ hmem)
    rw [hstep, dictInsert_of_fresh _ _ _ hnotacc]
    have hacc' : ∀ x ∈ (acc ++ [((_format_variable_name idx k used_names).1,
        FormattedVar.mk k v.type v.value)]).map Prod.fst,
        x ∈ (_format_variable_name idx k used_names).2 := by
      rw [hused]
      simp only [List.map_append, List.mem_append, List.map_cons, List.map_nil,
        List.mem_singleton]
      rintro x (hx | hx)
      · exact Or.inl (hacc _ hx)
      · exact Or.inr hx
    obtain ⟨delta, heq, hnd, hfr⟩ := ih _ _ hacc'
    rw [hused] at hfr
    refine ⟨((_format_variable_name idx k used_names).1,
      FormattedVar.mk k v.type v.value) :: delta, ?_, ?_, ?_⟩
    · rw [hused] at heq ⊢
      rw [heq]
      simp [List.append_assoc]
    · simp only [List.map_cons, List.nodup_cons]
      refine ⟨?_, hnd⟩
      intro hmem
      have hnotin := hfr _ hmem
      simp at hnotin
    · simp only [List.map_cons, List.mem_cons]
      rintro x (rfl | hx)
      · exact hfresh
      · have hnotin := hfr _ hx
        simp only [List.mem_append, List.mem_singleton, not_or] at hnotin
        exact hnotin.1

/-- `_collect_all_variables` produces pairwise distinct keys, all fresh with
respect to the incoming `used_names`, and reserves exactly those keys. -/
theorem collect_all_variables_spec (idx : Nat) (vars : List (String × VarValue V))
    (used_names : List String) :
    ∃ delta : List (String × FormattedVar V),
      _collect_all_variables idx vars used_names =
          (delta, used_names ++ delta.map Prod.fst) ∧
        (delta.map Prod.fst).Nodup ∧
        ∀ x ∈ delta.map Prod.fst, x ∉ used_names := by
  obtain ⟨delta, heq, hnd, hfr⟩ := collectLoop_spec idx vars [] used_names (by simp)
  exact ⟨delta, by simpa [_collect_all_variables] using heq, hnd, hfr⟩

/-- Composing two fresh, duplicate-free blocks of names (the second chosen
with the first already reserved) yields a fresh, duplicate-free block. -/
theorem fresh_chain {u k1 k2 : List String}
    (h1 : k1.Nodup) (d1 : ∀ x ∈ k1, x ∉ u)
    (h2 : k2.Nodup) (d2 : ∀ x ∈ k2, x ∉ u ++ k1) :
    (k1 ++ k2).Nodup ∧ ∀ x ∈ k1 ++ k2, x ∉ u := by
  constructor
  · rw [List.nodup_append]
    refine ⟨h1, h2, ?_⟩
    intro a ha hb
    exact d2 a hb (List.mem_append.2 (Or.inr ha))
  · intro x hx
    rcases List.mem_append.1 hx with hx | hx
    · exact d1 x hx
    · intro hu
      exact d2 x hx (List.mem_append.2 (Or.inl hu))

mutual
/-- Render invariant for one field: the final `used_names` is the initial one
followed by exactly the block `K` of names chosen in the subtree
(`collectKeys` of the per-node caches), and `K` is pairwise distinct and
disjoint from the initial `used_names`. -/
theorem to_ast_spec (f : GraphQLField V) (idx : Nat) (u : List String) :
    ∃ K : List String,
      (f.to_ast idx u).2.1 = u ++ K ∧ K.Nodup ∧ (∀ x ∈ K, x ∉ u) ∧
        collectKeys (f.to_ast idx u).2.2 = K := by
  cases f with
  | mk fn al vars subs frags =>
    have h21 : ((GraphQLField.mk fn al vars subs frags).to_ast idx u).2.1 =
        (renderFrags frags idx
          ((renderList subs idx (_collect_all_variables idx vars u).2).2.1)).2.1 := rfl
    have h22 : ((GraphQLField.mk fn al vars subs frags).to_ast idx u).2.2 =
        Rendered.mk (_collect_all_variables idx vars u).1
          (renderList subs idx (_collect_all_variables idx vars u).2).2.2
          (renderFrags frags idx
            ((renderList subs idx (_collect_all_variables idx vars u).2).2.1)).2.2 := rfl
    obtain ⟨d0, hc, hnd0, hfr0⟩ := collect_all_variables_spec idx vars u
    obtain ⟨K1, hL, hnd1, hfr1, hK1⟩ :=
      renderList_spec subs idx (_collect_all_variables idx vars u).2
    obtain ⟨K2, hF, hnd2, hfr2, hK2⟩ :=
      renderFrags_spec frags idx
        ((renderList subs idx (_collect_all_variables idx vars u).2).2.1)
    have hc1 : (_collect_all_variables idx vars u).1 = d0 := by rw [hc]
    have hc2 : (_collect_all_variables idx vars u).2 = u ++ d0.map Prod.fst := by rw [hc]
    rw [hc2] at hfr1
    have hfr2a : ∀ x ∈ K2, x ∉ u ++ (d0.map Prod.fst ++ K1) := by
      intro x hx
      have := hfr2 x hx
      rw [hL, hc2] at this
      simpa [List.append_assoc] using this
    have step1 := fresh_chain hnd0 hfr0 hnd1 hfr1
    have step2 := fresh_chain step1.1 step1.2 hnd2 hfr2a
    refine ⟨d0.map Prod.fst ++ (K1 ++ K2), ?_, ?_, ?_, ?_⟩
    · rw [h21, hF, hL, hc2]
      simp [List.append_assoc]
    · simpa [List.append_assoc] using step2.1
    · intro x hx
      exact step2.2 x (by simpa [List.append_assoc] using hx)
    · rw [h22]
      simp only [collectKeys]
      rw [hc1, hK1, hK2]
  termination_by sizeOf f

theorem renderList_spec (fs : List (GraphQLField V)) (idx : Nat) (u : List String) :
    ∃ K : List String,
      (renderList fs idx u).2.1 = u ++ K ∧ K.Nodup ∧ (∀ x ∈ K, x ∉ u) ∧
        collectKeysList (renderList fs idx u).2.2 = K := by
  cases fs with
  | nil =>
    exact ⟨[], by simp [renderList], by simp, by simp, by simp [renderList, collectKeysList]⟩
  | cons f rest =>
    have h21 : (renderList (f :: rest) idx u).2.1 =
        (renderList rest idx (f.to_ast idx u).2.1).2.1 := rfl
    have h22 : (renderList (f :: rest) idx u).2.2 =
        (f.to_ast idx u).2.2 :: (renderList rest idx (f.to_ast idx u).2.1).2.2 := rfl
    obtain ⟨Ka, ha, hnda, hfra, hKa⟩ := to_ast_spec f idx u
    obtain ⟨Kb, hb, hndb, hfrb, hKb⟩ := renderList_spec rest idx (f.to_ast idx u).2.1
    rw [ha] at hfrb
    have step := fresh_chain hnda hfra hndb hfrb
    refine ⟨Ka ++ Kb, ?_, step.1, step.2, ?_⟩
    · rw [h21, hb, ha]
      simp [List.append_assoc]
    · rw [h22]
      simp only [collectKeysList]
      rw [hKa, hKb]
  termination_by sizeOf fs

theorem renderFrags_spec (frs : List (String × List (GraphQLField V))) (idx : Nat)
    (u : List String) :
    ∃ K : List String,
      (renderFrags frs idx u).2.1 = u ++ K ∧ K.Nodup ∧ (∀ x ∈ K, x ∉ u) ∧
        collectKeysFrags (renderFrags frs idx u).2.2 = K := by
  cases frs with
  | nil =>
    exact ⟨[], by simp [renderFrags], by simp, by simp, by simp [renderFrags, collectKeysFrags]⟩
  | cons tb rest =>
    obtain ⟨tn, branch⟩ := tb
    have h21 : (renderFrags ((tn, branch) :: rest) idx u).2.1 =
        (renderFrags rest idx (renderList branch idx u).2.1).2.1 := rfl
    have h22 : (renderFrags ((tn, branch) :: rest) idx u).2.2 =
        (tn, (renderList branch idx u).2.2) ::
          (renderFrags rest idx (renderList branch idx u).2.1).2.2 := rfl
    obtain ⟨Ka, ha, hnda, hfra, hKa⟩ := renderList_spec branch idx u
    obtain ⟨Kb, hb, hndb, hfrb, hKb⟩ := renderFrags_spec rest idx (renderList branch idx u).2.1
    rw [ha] at hfrb
    have step := fresh_chain hnda hfra hndb hfrb
    refine ⟨Ka ++ Kb, ?_, step.1, step.2, ?_⟩
    · rw [h21, hb, ha]
      simp [List.append_assoc]
    · rw [h22]
      simp only [collectKeysFrags]
      rw [hKa, hKb]
  termination_by sizeOf frs
end

mutual
theorem flattenVars_keys (r : Rendered V) :
    (flattenVars r).map Prod.fst = collectKeys r := by
  cases r with
  | mk fv subs frags =>
    simp only [flattenVars, collectKeys, List.map_append]
    rw [flattenList_keys subs, flattenFrags_keys frags]
  termination_by sizeOf r

theorem flattenList_keys (rs : List (Rendered V)) :
    (flattenList rs).map Prod.fst = collectKeysList rs := by
  cases rs with
  | nil => rfl
  | cons r rest =>
    simp only [flattenList, collectKeysList, List.map_append]
    rw [flattenVars_keys r, flattenList_keys rest]
  termination_by sizeOf rs

theorem flattenFrags_keys (frs : List (String × List (Rendered V))) :
    (flattenFrags frs).map Prod.fst = collectKeysFrags frs := by
  cases frs with
  | nil => rfl
  | cons tb rest =>
    obtain ⟨tn, branch⟩ := tb
    simp only [flattenFrags, collectKeysFrags, List.map_append]
    rw [flattenList_keys branch, flattenFrags_keys rest]
  termination_by sizeOf frs
end

/-- `d.update(other)` degenerates to concatenation when `other` brings only
fresh, pairwise distinct keys. -/
theorem dictUpdate_of_fresh {α : Type} (other : List (String × α)) :
    ∀ d : List (String × α), (other.map Prod.fst).Nodup →
      (∀ k ∈ other.map Prod.fst, k ∉ d.map Prod.fst) →
      dictUpdate d other = d ++ other := by
  induction other with
  | nil =>
    intro d _ _
    simp [dictUpdate]
  | cons p rest ih =>
    intro d hnd hdisj
    obtain ⟨k, v⟩ := p
    simp only [List.map_cons, List.nodup_cons] at hnd
    have hk : k ∉ d.map Prod.fst := hdisj k (by simp)
    have hstep : dictUpdate d ((k, v) :: rest) = dictUpdate (dictInsert d k v) rest := rfl
    have hdisj' : ∀ x ∈ rest.map Prod.fst, x ∉ (d ++ [(k, v)]).map Prod.fst := by
      intro x hx
      simp only [List.map_append, List.mem_append, List.map_cons, List.map_nil,
        List.mem_singleton, not_or]
      refine ⟨hdisj x (by simp [hx]), ?_⟩
      intro hxk
      exact hnd.1 (hxk ▸ hx)
    rw [hstep, dictInsert_of_fresh d k v hk, ih (d ++ [(k, v)]) hnd.2 hdisj']
    simp

mutual
/-- When all keys in a rendered subtree are pairwise distinct (which `to_ast`
guarantees), the in-place aggregation of `get_formatted_variables` equals the
plain concatenation of the per-node variable lists. -/
theorem get_eq_flatten :
    ∀ r : Rendered V, (collectKeys r).Nodup →
      get_formatted_variables r = flattenVars r
  | .mk fv subs frags, h => by
    have hstep : get_formatted_variables (Rendered.mk fv subs frags) =
        aggFrags (aggList fv subs) frags := rfl
    simp only [collectKeys] at h
    have h1 : (fv.map Prod.fst ++ collectKeysList subs).Nodup := by
      refine List.Nodup.sublist ?_ h
      exact (List.append_sublist_append_left _).2 (List.sublist_append_left _ _)
    rw [hstep, aggList_eq fv subs h1]
    have hkeys : ((fv ++ flattenList subs).map Prod.fst) =
        fv.map Prod.fst ++ collectKeysList subs := by
      rw [List.map_append, flattenList_keys subs]
    have h2 : ((fv ++ flattenList subs).map Prod.fst ++ collectKeysFrags frags).Nodup := by
      rw [hkeys]
      simpa [List.append_assoc] using h
    rw [aggFrags_eq (fv ++ flattenList subs) frags h2]
    simp [flattenVars, List.append_assoc]

theorem aggList_eq :
    ∀ (acc : List (String × FormattedVar V)) (rs : List (Rendered V)),
      (acc.map Prod.fst ++ collectKeysList rs).Nodup →
      aggList acc rs = acc ++ flattenList rs
  | acc, [], _ => by simp [aggList, flattenList]
  | acc, r :: rest, h => by
    have hstep : aggList acc (r :: rest) =
        aggList (dictUpdate acc (get_formatted_variables r)) rest := rfl
    simp only [collectKeysList] at h
    have hr : (collectKeys r).Nodup := by
      refine List.Nodup.sublist ?_ h
      exact List.Sublist.trans (List.sublist_append_left _ _) (List.sublist_append_right _ _)
    have hdisj : ∀ k ∈ (flattenVars r).map Prod.fst, k ∉ acc.map Prod.fst := by
      rw [flattenVars_keys r]
      intro k hk hacc
      have hd := (List.nodup_append.1 h).2.2
      exact hd hacc (List.mem_append.2 (Or.inl hk))
    have hnd : ((flattenVars r).map Prod.fst).Nodup := by
      rw [flattenVars_keys r]
      exact hr
    rw [hstep, get_eq_flatten r hr, dictUpdate_of_fresh (flattenVars r) acc hnd hdisj]
    have h' : ((acc ++ flattenVars r).map Prod.fst ++ collectKeysList rest).Nodup := by
      rw [List.map_append, flattenVars_keys r]
      simpa [List.append_assoc] using h
    rw [aggList_eq (acc ++ flattenVars r) rest h']
    simp [flattenList, List.append_assoc]

theorem aggFrags_eq :
    ∀ (acc : List (String × FormattedVar V)) (frs : List (String × List (Rendered V))),
      (acc.map Prod.fst ++ collectKeysFrags frs).Nodup →
      aggFrags acc frs = acc ++ flattenFrags frs
  | acc, [], _ => by simp [aggFrags, flattenFrags]
  | acc, (tn, branch) :: rest, h => by
    have hstep : aggFrags acc ((tn, branch) :: rest) =
        aggFrags (aggList acc branch) rest := rfl
    simp only [collectKeysFrags] at h
    have h1 : (acc.map Prod.fst ++ collectKeysList branch).Nodup := by
      refine List.Nodup.sublist ?_ h
      exact (List.append_sublist_append_left _).2 (List.sublist_append_left _ _)
    rw [hstep, aggList_eq acc branch h1]
    have h2 : ((acc ++ flattenList branch).map Prod.fst ++ collectKeysFrags rest).Nodup := by
      rw [List.map_append, flattenList_keys branch]
      simpa [List.append_assoc] using h
    rw [aggFrags_eq (acc ++ flattenList branch) rest h2]
    simp [flattenFrags, List.append_assoc]
end

theorem eraseArgsSels_append (a b : List SelectionNode) :
    eraseArgsSels (a ++ b) = eraseArgsSels a ++ eraseArgsSels b := by
  induction a with
  | nil => simp [eraseArgsSels]
  | cons s rest ih => cases s <;> simp [eraseArgsSels, ih]

theorem eraseArgsSels_map_ofField (l : List FieldNode) :
    eraseArgsSels (l.map SelectionNode.ofField) = (eraseArgsFs l).map SelectionNode.ofField := by
  induction l with
  | nil => simp [eraseArgsSels, eraseArgsFs]
  | cons f rest ih => simp [eraseArgsSels, eraseArgsFs, ih]

theorem astShapeList_eq_map (fs : List (GraphQLField V)) :
    astShapeList fs = (astShapeBranch fs).map SelectionNode.ofField := by
  induction fs with
  | nil => simp [astShapeList, astShapeBranch]
  | cons f rest ih => simp [astShapeList, astShapeBranch, ih]

mutual
/-- Up to the rendered arguments, `to_ast` produces exactly the specification
shape of the tree, for any `idx` and any starting `used_names`. -/
theorem erase_to_ast :
    ∀ (f : GraphQLField V) (idx : Nat) (u : List String),
      eraseArgsF (f.to_ast idx u).1 = astShape f
  | .mk fn al vars subs frags, idx, u => by
    have h1 : ((GraphQLField.mk fn al vars subs frags).to_ast idx u).1 =
        FieldNode.mk (_build_field_name al fn)
          ((_collect_all_variables idx vars u).1.map
            (fun kv => (GraphQLArgument.mk kv.2.name kv.1).to_ast))
          (if subs.isEmpty && frags.isEmpty then none
           else some ((renderList subs idx (_collect_all_variables idx vars u).2).1.map
                SelectionNode.ofField ++
              (renderFrags frags idx
                (renderList subs idx (_collect_all_variables idx vars u).2).2.1).1)) := rfl
    rw [h1]
    by_cases hempty : (subs.isEmpty && frags.isEmpty) = true
    · rw [if_pos hempty]
      show FieldNode.mk (_build_field_name al fn) [] none = astShape _
      simp only [astShape]
      rw [if_pos hempty]
    · rw [if_neg hempty]
      show FieldNode.mk (_build_field_name al fn) []
          (some (eraseArgsSels _)) = astShape _
      simp only [astShape]
      rw [if_neg hempty]
      rw [eraseArgsSels_append, eraseArgsSels_map_ofField,
        erase_renderList subs idx (_collect_all_variables idx vars u).2,
        erase_renderFrags frags idx
          (renderList subs idx (_collect_all_variables idx vars u).2).2.1,
        astShapeList_eq_map]

theorem erase_renderList :
    ∀ (fs : List (GraphQLField V)) (idx : Nat) (u : List String),
      eraseArgsFs (renderList fs idx u).1 = astShapeBranch fs
  | [], _, _ => rfl
  | f :: rest, idx, u => by
    have h1 : (renderList (f :: rest) idx u).1 =
        (f.to_ast idx u).1 :: (renderList rest idx (f.to_ast idx u).2.1).1 := rfl
    rw [h1]
    show eraseArgsF (f.to_ast idx u).1 ::
        eraseArgsFs (renderList rest idx (f.to_ast idx u).2.1).1 = _
    rw [erase_to_ast f idx u, erase_renderList rest idx (f.to_ast idx u).2.1]
    rfl

theorem erase_renderFrags :
    ∀ (frs : List (String × List (GraphQLField V))) (idx : Nat) (u : List String),
      eraseArgsSels (renderFrags frs idx u).1 = astShapeFrags frs
  | [], _, _ => rfl
  | (tn, branch) :: rest, idx, u => by
    have h1 : (renderFrags ((tn, branch) :: rest) idx u).1 =
        SelectionNode.inlineFragment tn (renderList branch idx u).1 ::
          (renderFrags rest idx (renderList branch idx u).2.1).1 := rfl
    rw [h1]
    show SelectionNode.inlineFragment tn (eraseArgsFs (renderList branch idx u).1) ::
        eraseArgsSels (renderFrags rest idx (renderList branch idx u).2.1).1 = _
    rw [erase_renderList branch idx u,
      erase_renderFrags rest idx (renderList branch idx u).2.1]
    rfl
end

theorem renderFrags_conds (frs : List (String × List (GraphQLField V))) (idx : Nat) :
    ∀ u : List String,
      (renderFrags frs idx u).1.filterMap selFragCond = frs.map Prod.fst := by
  induction frs with
  | nil => intro u; rfl
  | cons tb rest ih =>
    intro u
    obtain ⟨tn, branch⟩ := tb
    have h1 : (renderFrags ((tn, branch) :: rest) idx u).1 =
        SelectionNode.inlineFragment tn (renderList branch idx u).1 ::
          (renderFrags rest idx (renderList branch idx u).2.1).1 := rfl
    rw [h1]
    simp [List.filterMap_cons, selFragCond, ih]

/-- The inline fragments rendered by `to_ast` are typed on exactly the
registered type names, in registration order. -/
theorem to_ast_fragmentTypeConditions (f : GraphQLField V) (idx : Nat) (u : List String) :
    fragmentTypeConditions (f.to_ast idx u).1 = f.inline_fragments.map Prod.fst := by
  cases f with
  | mk fn al vars subs frags =>
    have h1 : ((GraphQLField.mk fn al vars subs frags).to_ast idx u).1 =
        FieldNode.mk (_build_field_name al fn)
          ((_collect_all_variables idx vars u).1.map
            (fun kv => (GraphQLArgument.mk kv.2.name kv.1).to_ast))
          (if subs.isEmpty && frags.isEmpty then none
           else some ((renderList subs idx (_collect_all_variables idx vars u).2).1.map
                SelectionNode.ofField ++
              (renderFrags frags idx
                (renderList subs idx (_collect_all_variables idx vars u).2).2.1).1)) := rfl
    rw [h1]
    by_cases hempty : (subs.isEmpty && frags.isEmpty) = true
    · rw [if_pos hempty]
      have hfr : frags = [] := by
        simp only [Bool.and_eq_true, List.isEmpty_iff] at hempty
        exact hempty.2
      rw [hfr]
      rfl
    · rw [if_neg hempty]
      show ((renderList subs idx (_collect_all_variables idx vars u).2).1.map
              SelectionNode.ofField ++
            (renderFrags frags idx
              (renderList subs idx (_collect_all_variables idx vars u).2).2.1).1).filterMap
          selFragCond = frags.map Prod.fst
      rw [List.filterMap_append, renderFrags_conds]
      have hnone : ∀ l : List FieldNode,
          (l.map SelectionNode.ofField).filterMap selFragCond = [] := by
        intro l
        induction l with
        | nil => rfl
        | cons x rest ih => simp [List.filterMap_cons, selFragCond, ih]
      rw [hnone]
      rfl

theorem astShapeFrags_pairs (frs : List (String × List (GraphQLField V))) :
    (astShapeFrags frs).filterMap selFragPair =
      frs.map (fun p => (p.1, astShapeBranch p.2)) := by
  induction frs with
  | nil => rfl
  | cons tb rest ih =>
    obtain ⟨tn, branch⟩ := tb
    simp [astShapeFrags, List.filterMap_cons, selFragPair, ih]

theorem astShapeList_pairs (fs : List (GraphQLField V)) :
    (astShapeList fs).filterMap selFragPair = [] := by
  induction fs with
  | nil => rfl
  | cons f rest ih => simp [astShapeList, List.filterMap_cons, selFragPair, ih]

/-- The fragments of the specification shape are the registered branches. -/
theorem fragmentsOf_astShape (f : GraphQLField V) :
    fragmentsOf (astShape f) =
      f.inline_fragments.map (fun p => (p.1, astShapeBranch p.2)) := by
  cases f with
  | mk fn al vars subs frags =>
    show fragmentsOf (astShape (GraphQLField.mk fn al vars subs frags)) = frags.map _
    by_cases hempty : (subs.isEmpty && frags.isEmpty) = true
    · have hfr : frags = [] := by
        simp only [Bool.and_eq_true, List.isEmpty_iff] at hempty
        exact hempty.2
      have hshape : astShape (GraphQLField.mk fn al vars subs frags) =
          FieldNode.mk (_build_field_name al fn) [] none := by
        simp only [astShape]
        rw [if_pos hempty]
      rw [hshape, hfr]
      rfl
    · have hshape : astShape (GraphQLField.mk fn al vars subs frags) =
          FieldNode.mk (_build_field_name al fn) []
            (some (astShapeList subs ++ astShapeFrags frags)) := by
        simp only [astShape]
        rw [if_neg hempty]
      rw [hshape]
      show (astShapeList subs ++ astShapeFrags frags).filterMap selFragPair = _
      rw [List.filterMap_append, astShapeList_pairs, astShapeFrags_pairs]
      rfl

theorem add_inline_fragment_frags (f : GraphQLField V) (tn : String)
    (b : List (GraphQLField V)) :
    (f.add_inline_fragment tn b).inline_fragments = dictInsert f.inline_fragments tn b := by
  cases f
  rfl

/-- `d[k] = v` on a dict already holding `k` rewrites the value in place. -/
theorem dictInsert_replace {α : Type} (d : List (String × α)) (k : String) (v : α)
    (h : k ∈ d.map Prod.fst) :
    dictInsert d k v = d.map (fun p => if p.1 == k then (k, v) else p) := by
  unfold dictInsert
  rw [if_pos]
  simp only [List.any_eq_true, beq_iff_eq]
  obtain ⟨p, hp, hk⟩ := List.mem_map.1 h
  exact ⟨p, hp, hk⟩

theorem map_fst_replace {α : Type} (d : List (String × α)) (k : String) (v : α) :
    (d.map (fun p => if p.1 == k then (k, v) else p)).map Prod.fst = d.map Prod.fst := by
  induction d with
  | nil => rfl
  | cons p rest ih =>
    simp only [List.map_cons, ih]
    by_cases hp : (p.1 == k) = true
    · rw [if_pos hp]
      simp [(beq_iff_eq.1 hp).symm]
    · rw [if_neg hp]

theorem lookup_replace {α : Type} (d : List (String × α)) (k : String) (v : α)
    (h : k ∈ d.map Prod.fst) :
    (d.map (fun p => if p.1 == k then (k, v) else p)).lookup k = some v := by
  induction d with
  | nil => simp at h
  | cons p rest ih =>
    simp only [List.map_cons]
    by_cases hp : (p.1 == k) = true
    · rw [if_pos hp]
      simp [List.lookup]
    · rw [if_neg hp]
      have hne : (k == p.1) = false := by
        simp only [beq_eq_false_iff_ne]
        intro hkp
        exact hp (by simp [hkp])
      have hmem : k ∈ rest.map Prod.fst := by
        simp only [List.map_cons, List.mem_cons] at h
        rcases h with h | h
        · exact absurd (beq_iff_eq.2 h.symm) hp
        · exact h
      simp only [List.lookup, hne]
      exact ih hmem

theorem lookup_map_pair {α β : Type} (g : α → β) (d : List (String × α)) (k : String) :
    (d.map (fun p => (p.1, g p.2))).lookup k = (d.lookup k).map g := by
  induction d with
  | nil => rfl
  | cons p rest ih =>
    simp only [List.map_cons, List.lookup]
    by_cases hp : (k == p.1) = true
    · simp [hp]
    · simp only [hp]
      exact ih

/-- C1: for every Field tree, every index and every starting `used_names`
set, the keys of the aggregated formatted-variables mapping of the rendered
root (`get_formatted_variables` after `to_ast`) are pairwise distinct, and
none of them collides with a name already in the starting set. -/
theorem C1_aggregated_variable_names_unique (f : GraphQLField V) (idx : Nat)
    (used_names : List String) :
    ((get_formatted_variables (f.to_ast idx used_names).2.2).map Prod.fst).Nodup ∧
      ∀ x ∈ (get_formatted_variables (f.to_ast idx used_names).2.2).map Prod.fst,
        x ∉ used_names := by
  obtain ⟨K, _hu, hnd, hfr, hK⟩ := to_ast_spec f idx used_names
  have hcnd : (collectKeys (f.to_ast idx used_names).2.2).Nodup := by
    rw [hK]
    exact hnd
  rw [get_eq_flatten _ hcnd, flattenVars_keys, hK]
  exact ⟨hnd, hfr⟩

/-- C9: the suffix-search loop of `_format_variable_name` terminates on every
finite `used_names` set (the embedding is total, with `used_names.length + 1`
iterations proven sufficient to find a free candidate), and the returned name
was not in the set before the call and is in the returned set afterwards. -/
theorem C9_format_variable_name_terminates_fresh (idx : Nat) (var_name : String)
    (used_names : List String) :
    (_format_variable_name idx var_name used_names).1 ∉ used_names ∧
      (_format_variable_name idx var_name used_names).1 ∈
        (_format_variable_name idx var_name used_names).2 ∧
      (_format_variable_name idx var_name used_names).2 =
        used_names ++ [(_format_variable_name idx var_name used_names).1] := by
  obtain ⟨h1, h2⟩ := format_variable_name_spec idx var_name used_names
  refine ⟨h1, ?_, h2⟩
  rw [h2]
  simp

/-- C5: `to_ast` omits the selection set exactly on leaves: the rendered
node's selection set is `none` iff the Field has no subfields and no inline
fragments, regardless of its arguments. -/
theorem C5_leaf_minimality (f : GraphQLField V) (idx : Nat) (u : List String) :
    (f.to_ast idx u).1.selection_set = none ↔
      (f.subfields = [] ∧ f.inline_fragments = []) := by
  cases f with
  | mk fn al vars subs frags =>
    have h1 : ((GraphQLField.mk fn al vars subs frags).to_ast idx u).1.selection_set =
        (if subs.isEmpty && frags.isEmpty then none
         else some ((renderList subs idx (_collect_all_variables idx vars u).2).1.map
              SelectionNode.ofField ++
            (renderFrags frags idx
              (renderList subs idx (_collect_all_variables idx vars u).2).2.1).1)) := rfl
    show _ ↔ (subs = [] ∧ frags = [])
    rw [h1]
    by_cases hempty : (subs.isEmpty && frags.isEmpty) = true
    · rw [if_pos hempty]
      simp only [Bool.and_eq_true, List.isEmpty_iff] at hempty
      simp [hempty.1, hempty.2]
    · rw [if_neg hempty]
      simp only [Bool.and_eq_true, List.isEmpty_iff] at hempty
      constructor
      · intro hcon
        exact absurd hcon (by simp)
      · intro hcon
        exact absurd (And.intro hcon.1 hcon.2) hempty

/-- C7 counterexample: the claim says the rendered name is
`"{alias}: {fieldName}"` whenever an alias has been set; but a Field whose
alias has been set to the empty string (falsy in Python) renders under its
bare field name `"user"`, not under `": user"`. -/
theorem C7_counterexample :
    (((GraphQLField.mk "user" none ([] : List (String × VarValue Unit)) [] []).alias'
        "").to_ast 0 []).1.name = "user" ∧
      ("" ++ ": " ++ "user" : String) ≠ "user" := by
  exact ⟨rfl, by decide⟩

/-- C7 (amended): the rendered field name is `"{alias}: {fieldName}"` whenever
a *non-empty* alias has been set (with a later `alias` call overriding an
earlier one); it is exactly `fieldName` when no alias is set, and also when
the alias is set to the empty string (Python truthiness of `self._alias`). -/
theorem C7_alias_precedence (f : GraphQLField V) (idx : Nat) (u : List String)
    (a b : String) (ha : a ≠ "") :
    ((f.alias' a).to_ast idx u).1.name = a ++ ": " ++ f.field_name ∧
      (f.alias? = none → (f.to_ast idx u).1.name = f.field_name) ∧
      ((GraphQLField.alias' f "").to_ast idx u).1.name = f.field_name ∧
      (f.alias' a).alias' b = f.alias' b := by
  cases f with
  | mk fn al vars subs frags =>
    refine ⟨?_, ?_, ?_, rfl⟩
    · show _build_field_name (some a) fn = a ++ ": " ++ fn
      have hie : ¬ (a.isEmpty = true) := fun hie => ha ((String.isEmpty_iff a).1 hie)
      simp only [_build_field_name]
      rw [if_neg hie]
    · intro hal
      have hnone : al = none := hal
      subst hnone
      rfl
    · rfl

/-- C8: rendering is a deterministic function of the tree, the index and the
starting `used_names` set: two runs over the same tree with the same index,
each from a fresh empty set, give equal AST output and equal aggregated
formatted variables. -/
theorem C8_deterministic (f : GraphQLField V) (idx : Nat)
    (r1 r2 : FieldNode × List String × Rendered V)
    (h1 : r1 = f.to_ast idx []) (h2 : r2 = f.to_ast idx []) :
    r1 = r2 ∧ get_formatted_variables r1.2.2 = get_formatted_variables r2.2.2 := by
  subst h1
  subst h2
  exact ⟨rfl, rfl⟩

/-- C8 witness at a concrete one-argument field. -/
theorem C8_deterministic_witness :
    (GraphQLField.mk "user" none [("id", VarValue.mk "ID!" "v")] [] []).to_ast 0 [] =
        (GraphQLField.mk "user" none [("id", VarValue.mk "ID!" "v")] [] []).to_ast 0 [] ∧
      get_formatted_variables
          ((GraphQLField.mk "user" none [("id", VarValue.mk "ID!" ("v" : String))]
            [] []).to_ast 0 []).2.2 =
        get_formatted_variables
          ((GraphQLField.mk "user" none [("id", VarValue.mk "ID!" "v")] [] []).to_ast 0 []).2.2 :=
  C8_deterministic (GraphQLField.mk "user" none [("id", VarValue.mk "ID!" "v")] [] []) 0
    ((GraphQLField.mk "user" none [("id", VarValue.mk "ID!" "v")] [] []).to_ast 0 [])
    ((GraphQLField.mk "user" none [("id", VarValue.mk "ID!" "v")] [] []).to_ast 0 []) rfl rfl

/-- C7 witness at a concrete field aliased "a" (and then "b"). -/
theorem C7_alias_precedence_witness :
    ("a" : String) ≠ "" ∧
      ((((GraphQLField.mk "user" none ([] : List (String × VarValue Unit)) [] []).alias'
            "a").to_ast 0 []).1.name = "a" ++ ": " ++ "user" ∧
        ((GraphQLField.mk "user" none ([] : List (String × VarValue Unit)) [] []).alias? =
            none →
          ((GraphQLField.mk "user" none ([] : List (String × VarValue Unit)) [] []).to_ast
              0 []).1.name = "user") ∧
        (((GraphQLField.mk "user" none ([] : List (String × VarValue Unit)) [] []).alias'
            "").to_ast 0 []).1.name = "user" ∧
        GraphQLField.alias'
          ((GraphQLField.mk "user" none ([] : List (String × VarValue Unit)) [] []).alias'
            "a") "b" =
          (GraphQLField.mk "user" none ([] : List (String × VarValue Unit)) [] []).alias'
            "b") :=
  ⟨by decide,
    C7_alias_precedence
      (GraphQLField.mk "user" none ([] : List (String × VarValue Unit)) [] [])
      0 [] "a" "b" (by decide)⟩

/-- C2: two sibling subfields both named "user", the first aliased "a", the
second aliased "b", each declaring an argument `id` with its own type and
value; rendered with index 0 from an empty set, the first argument becomes
variable `0_id` and the second `0_id_1`, each node's formatted-variables entry
records the original name `id` together with that argument's own type and
value, and the aggregated mapping holds both. -/
theorem C2_collision_scenario :
    ((((GraphQLField.mk "q" none [] [] []).add_subfield
          ((GraphQLField.mk "user" none [("id", VarValue.mk "ID!" "va")] [] []).alias'
            "a")).add_subfield
          ((GraphQLField.mk "user" none [("id", VarValue.mk "ID!" "vb")] [] []).alias'
            "b")).to_ast 0 []).1 =
        FieldNode.mk "q" []
          (some
            [SelectionNode.ofField
              (FieldNode.mk "a: user" [ArgumentNode.mk "id" "0_id"] none),
             SelectionNode.ofField
              (FieldNode.mk "b: user" [ArgumentNode.mk "id" "0_id_1"] none)]) ∧
      ((((GraphQLField.mk "q" none [] [] []).add_subfield
          ((GraphQLField.mk "user" none [("id", VarValue.mk "ID!" "va")] [] []).alias'
            "a")).add_subfield
          ((GraphQLField.mk "user" none [("id", VarValue.mk "ID!" "vb")] [] []).alias'
            "b")).to_ast 0 []).2.2 =
        Rendered.mk []
          [Rendered.mk [("0_id", FormattedVar.mk "id" "ID!" "va")] [] [],
           Rendered.mk [("0_id_1", FormattedVar.mk "id" "ID!" "vb")] [] []] [] ∧
      get_formatted_variables
          ((((GraphQLField.mk "q" none [] [] []).add_subfield
            ((GraphQLField.mk "user" none [("id", VarValue.mk "ID!" "va")] [] []).alias'
              "a")).add_subfield
            ((GraphQLField.mk "user" none [("id", VarValue.mk "ID!" "vb")] [] []).alias'
              "b")).to_ast 0 []).2.2 =
        [("0_id", FormattedVar.mk "id" "ID!" "va"),
         ("0_id_1", FormattedVar.mk "id" "ID!" "vb")] :=
  ⟨rfl, rfl, rfl⟩

/-- C6: up to the rendered arguments, the output of `to_ast` is exactly the
specification shape `astShape`: the selection set lists the rendered
subfields first, in insertion order, then one inline-fragment node per
registered type name, in registration order, each typed on its name and
containing exactly its own branch's fields; moreover the fragment type
conditions of the un-erased output follow registration order verbatim. -/
theorem C6_selection_order (f : GraphQLField V) (idx : Nat) (u : List String) :
    eraseArgsF (f.to_ast idx u).1 = astShape f ∧
      fragmentTypeConditions (f.to_ast idx u).1 = f.inline_fragments.map Prod.fst ∧
      fragmentsOf (astShape f) =
        f.inline_fragments.map (fun p => (p.1, astShapeBranch p.2)) :=
  ⟨erase_to_ast f idx u, to_ast_fragmentTypeConditions f idx u, fragmentsOf_astShape f⟩

/-- C10: `add_inline_fragment` with an already registered type name replaces
that branch's fields but keeps the branch at the position of its first
registration: the key order is unchanged — hence (by the fragment order of
`to_ast`) so is the fragment's position in the rendered output, which does
not move to the end — the branch stored under the name is the new one, and in
the rendered shape the fragment under that name contains exactly the new
branch's fields. -/
theorem C10_refragment_keeps_position (f : GraphQLField V) (tn : String)
    (b2 : List (GraphQLField V)) (idx : Nat) (u : List String)
    (h : tn ∈ f.inline_fragments.map Prod.fst) :
    (f.add_inline_fragment tn b2).inline_fragments.map Prod.fst =
        f.inline_fragments.map Prod.fst ∧
      (f.add_inline_fragment tn b2).inline_fragments.lookup tn = some b2 ∧
      fragmentTypeConditions ((f.add_inline_fragment tn b2).to_ast idx u).1 =
        fragmentTypeConditions (f.to_ast idx u).1 ∧
      (fragmentsOf (astShape (f.add_inline_fragment tn b2))).lookup tn =
        some (astShapeBranch b2) := by
  have hfr := add_inline_fragment_frags f tn b2
  have hrepl := dictInsert_replace f.inline_fragments tn b2 h
  refine ⟨?_, ?_, ?_, ?_⟩
  · rw [hfr, hrepl, map_fst_replace]
  · rw [hfr, hrepl]
    exact lookup_replace f.inline_fragments tn b2 h
  · rw [to_ast_fragmentTypeConditions, to_ast_fragmentTypeConditions, hfr, hrepl,
      map_fst_replace]
  · rw [fragmentsOf_astShape, hfr, hrepl, lookup_map_pair,
      lookup_replace f.inline_fragments tn b2 h]
    rfl

/-- C10 witness: re-registering the "Cat" branch of `petField`. -/
theorem C10_refragment_keeps_position_witness :
    ("Cat" ∈ petField.inline_fragments.map Prod.fst) ∧
      ((petField.add_inline_fragment "Cat" catBranch2).inline_fragments.map Prod.fst =
          petField.inline_fragments.map Prod.fst ∧
        (petField.add_inline_fragment "Cat" catBranch2).inline_fragments.lookup "Cat" =
          some catBranch2 ∧
        fragmentTypeConditions
            ((petField.add_inline_fragment "Cat" catBranch2).to_ast 0 []).1 =
          fragmentTypeConditions (petField.to_ast 0 []).1 ∧
        (fragmentsOf (astShape (petField.add_inline_fragment "Cat" catBranch2))).lookup
            "Cat" =
          some (astShapeBranch catBranch2)) :=
  ⟨by decide, C10_refragment_keeps_position petField "Cat" catBranch2 0 [] (by decide)⟩

end QueryBuilder

namespace SdkConfig

/-- C3 (code bug): `Settings.__post_init__` never rejects an invalid package
name — `_assert_string_is_valid_package_name` returns its boolean instead of
raising, and `__post_init__` discards the result.  With existing paths and the
reserved keyword `"class"` as `target_package_name`, the validity check itself
evaluates to `false`, yet construction succeeds. -/
theorem C3_invalid_package_name_accepted :
    _assert_string_is_valid_package_name "class" = false ∧
      mkSettings (FileSystem.mk (fun _ => true) (fun _ => true)) "schema.graphql"
          "queries.graphql" "class" "." =
        Except.ok (Settings.mk "schema.graphql" "queries.graphql" "class" ".") :=
  ⟨by decide, rfl⟩

/-- C4: whenever the section under the configured key omits `queries_path`,
`parse_config_file` raises `MissingConfiguration` naming exactly the
`Settings` fields absent from the section — no more and no fewer. -/
theorem C4_missing_queries_path (fs : FileSystem) (cwd : String)
    (config : List (String × List (String × String))) (section_key : String)
    (sec : List (String × String))
    (hsec : config.lookup section_key = some sec)
    (hq : "queries_path" ∉ sec.map Prod.fst) :
    parse_config_file fs cwd config section_key =
        Except.error (ConfigError.missingConfigurationFields
          (missing_fields (sec.map Prod.fst))) ∧
      ∀ fname, fname ∈ missing_fields (sec.map Prod.fst) ↔
        (fname ∈ settings_field_names ∧ fname ∉ sec.map Prod.fst) := by
  have htype : settingsCallRaisesTypeError (sec.map Prod.fst) = true := by
    simp only [settingsCallRaisesTypeError, required_field_names, Bool.or_eq_true,
      List.any_eq_true]
    refine Or.inl ⟨"queries_path", by simp, ?_⟩
    simp [List.contains, hq]
  constructor
  · unfold parse_config_file
    rw [hsec]
    show parse_config_section fs cwd sec = _
    unfold parse_config_section
    rw [if_pos htype]
  · intro fname
    simp [missing_fields, List.mem_filter, List.contains]

/-- C4 witness: a section holding only `schema_path`. -/
theorem C4_missing_queries_path_witness :
    ([("graphql-sdk-gen", [("schema_path", "schema.graphql")])].lookup "graphql-sdk-gen" =
        some [("schema_path", "schema.graphql")]) ∧
      (("queries_path" : String) ∉
        ([("schema_path", "schema.graphql")] : List (String × String)).map Prod.fst) ∧
      (parse_config_file (FileSystem.mk (fun _ => true) (fun _ => true)) "."
            [("graphql-sdk-gen", [("schema_path", "schema.graphql")])] "graphql-sdk-gen" =
          Except.error (ConfigError.missingConfigurationFields
            (missing_fields
              (([("schema_path", "schema.graphql")] : List (String × String)).map
                Prod.fst))) ∧
        ∀ fname,
          fname ∈ missing_fields
              (([("schema_path", "schema.graphql")] : List (String × String)).map
                Prod.fst) ↔
            (fname ∈ settings_field_names ∧
              fname ∉ ([("schema_path", "schema.graphql")] : List (String × String)).map
                Prod.fst)) :=
  ⟨rfl, by decide,
    C4_missing_queries_path (FileSystem.mk (fun _ => true) (fun _ => true)) "."
      [("graphql-sdk-gen", [("schema_path", "schema.graphql")])] "graphql-sdk-gen"
      [("schema_path", "schema.graphql")] rfl (by decide)⟩

end SdkConfig
